import Mathlib

/-!
Verification development for the arduinoSmsServer device session manager.

Definitions shallowly embed the Go host code (`serial.go` variant with the
readiness gate and reconnection supervisor) and the Arduino firmware
(`sms_gateway.ino`).  Strings on the wire are modelled as `List Char`.
-/

namespace ArduinoSms

/-! ## Host-side JSON serialization (Go `encoding/json`, default HTML escaping)

`SerialCommand` mirrors the Go struct: fields `Cmd`, `Number`, `Content` with
JSON keys `cmd`, `number,omitempty`, `content,omitempty`. -/

structure SerialCommand where
  Cmd : List Char
  Number : List Char
  Content : List Char
deriving DecidableEq

/-- Lowercase hex digit, as produced by Go's JSON encoder. -/
def hexDigitChar (n : Nat) : Char :=
  if n < 10 then Char.ofNat (48 + n) else Char.ofNat (87 + n)

/-- Go `encoding/json` escaping of one character inside a quoted string,
with the default HTML escaping (`<`, `>`, `&` become `\u00..`). -/
def goEscapeChar (c : Char) : List Char :=
  if c = '"' then ['\\', '"']
  else if c = '\\' then ['\\', '\\']
  else if c = '\n' then ['\\', 'n']
  else if c = '\r' then ['\\', 'r']
  else if c = '\t' then ['\\', 't']
  else if c.toNat < 0x20 then
    ['\\', 'u', '0', '0', hexDigitChar (c.toNat / 16), hexDigitChar (c.toNat % 16)]
  else if c = '<' then ['\\', 'u', '0', '0', '3', 'c']
  else if c = '>' then ['\\', 'u', '0', '0', '3', 'e']
  else if c = '&' then ['\\', 'u', '0', '0', '2', '6']
  else if c.toNat = 0x2028 then ['\\', 'u', '2', '0', '2', '8']
  else if c.toNat = 0x2029 then ['\\', 'u', '2', '0', '2', '9']
  else [c]

/-- Go JSON encoding of a string value, quotes included. -/
def goQuoteString (s : List Char) : List Char :=
  '"' :: (s.map goEscapeChar).flatten ++ ['"']

/-- One `"key":` fragment of the serialized object (keys are plain ASCII). -/
def goKey (k : List Char) : List Char :=
  '"' :: k ++ ['"', ':']

/-- `json.Marshal` of a `SerialCommand`: fields in struct order, the
`number` and `content` fields omitted when empty (`omitempty`). -/
def jsonMarshal (cmd : SerialCommand) : List Char :=
  '{' :: (goKey "cmd".toList ++ goQuoteString cmd.Cmd)
    ++ (if cmd.Number = [] then [] else ',' :: goKey "number".toList ++ goQuoteString cmd.Number)
    ++ (if cmd.Content = [] then [] else ',' :: goKey "content".toList ++ goQuoteString cmd.Content)
    ++ ['}']

/-! ## Arduino-side decoding (`sms_gateway.ino`) -/

/-- Index of the first occurrence of `pat` as a contiguous substring of the
haystack, mirroring Arduino `String.indexOf` (which returns -1, here `none`,
when absent). -/
def idxOfSub (pat : List Char) : List Char → Option Nat
  | [] => if pat = [] then some 0 else none
  | c :: t => if pat <+: c :: t then some 0 else (idxOfSub pat t).map (· + 1)

/-- The search key `"key":"` built by `extractJSONValue`. -/
def quotePat (key : List Char) : List Char :=
  '"' :: key ++ ['"', ':', '"']

/-- `extractJSONValue(json, key)` from the firmware: find `"key":"`, then
take everything up to the next `"` character (no unescaping). -/
def extractJSONValue (json key : List Char) : List Char :=
  match idxOfSub (quotePat key) json with
  | none => []
  | some i =>
    let startIndex := i + (quotePat key).length
    match idxOfSub ['"'] (json.drop startIndex) with
    | none => []
    | some j => (json.drop startIndex).take j

/-- `escapeJSON` from the firmware: backslash-escape `"` and `\`. -/
def escapeJSON (str : List Char) : List Char :=
  (str.map (fun c => if c = '"' ∨ c = '\\' then ['\\', c] else [c])).flatten

/-- Go `unicode.IsSpace` restricted to the ASCII range, as used by
`strings.TrimSpace` on protocol lines (and Arduino `String.trim`). -/
def isSpaceGo (c : Char) : Bool :=
  c == ' ' || c == '\t' || c == '\n' || c == '\r' || c == '\x0b' || c == '\x0c'

/-- Trim leading and trailing whitespace. -/
def trimWS (l : List Char) : List Char :=
  ((l.dropWhile isSpaceGo).reverse.dropWhile isSpaceGo).reverse

/-- The firmware's serial loop accumulates characters up to the first
newline into `serialBuffer`, then trims it before parsing. -/
def peerAssemble (bs : List Char) : List Char :=
  trimWS (bs.takeWhile (fun c => c != '\n'))

/-- The JSON key lists used by both sides of the protocol. -/
def cmdKey : List Char := ['c', 'm', 'd']

def numberKey : List Char := ['n', 'u', 'm', 'b', 'e', 'r']

def contentKey : List Char := ['c', 'o', 'n', 't', 'e', 'n', 't']

def sendWord : List Char := ['s', 'e', 'n', 'd']

/-- The byte string `SendSMS` writes to the transport: the marshalled
`send` command followed by the newline terminator. -/
def sendCmdData (number content : List Char) : List Char :=
  jsonMarshal ⟨sendWord, number, content⟩ ++ ['\n']

/-- A character Go's JSON encoder emits verbatim inside a quoted string:
not a quote, backslash, control character, HTML-escaped character, or
line/paragraph separator. -/
def plainChar (c : Char) : Prop :=
  c ≠ '"' ∧ c ≠ '\\' ∧ 0x20 ≤ c.toNat ∧ c ≠ '<' ∧ c ≠ '>' ∧ c ≠ '&' ∧
    c.toNat ≠ 0x2028 ∧ c.toNat ≠ 0x2029

instance (c : Char) : Decidable (plainChar c) := by
  unfold plainChar; infer_instance

/-! ### The serialized `send` command, segment by segment -/

/-- The 14 characters of the marshalled object that precede the
`"number":"` search key. -/
def gwHead : List Char :=
  ['{', '"', 'c', 'm', 'd', '"', ':', '"', 's', 'e', 'n', 'd', '"', ',']

/-- The 24 characters preceding the number value (when present). -/
def gwNumHead : List Char :=
  ['{', '"', 'c', 'm', 'd', '"', ':', '"', 's', 'e', 'n', 'd', '"', ',',
   '"', 'n', 'u', 'm', 'b', 'e', 'r', '"', ':', '"']

/-- The 25 characters preceding the content value when the number field
is omitted. -/
def gwConHead : List Char :=
  ['{', '"', 'c', 'm', 'd', '"', ':', '"', 's', 'e', 'n', 'd', '"', ',',
   '"', 'c', 'o', 'n', 't', 'e', 'n', 't', '"', ':', '"']

/-! ## Line Codec (`readLoop` in the session manager)

The read loop appends each chunk of bytes read from the transport to
`lineBuf`, then repeatedly extracts the prefix up to the first newline,
trims it, and dispatches it to `handleResponse` when nonempty. -/

/-- Split the buffer at the first newline, mirroring
`bytes.IndexByte(lineBuf, '\n')` followed by the take/drop. -/
def breakLine : List Char → Option (List Char × List Char)
  | [] => none
  | c :: t =>
    if c = '\n' then some ([], t)
    else (breakLine t).map (fun p => (c :: p.1, p.2))

/-- Dispatch the trimmed line when nonempty (`if line == "" continue`). -/
def emitLine (line : List Char) : List (List Char) :=
  if trimWS line = [] then [] else [trimWS line]

/-- Extract and dispatch every complete line in the buffer; the suffix
after the last newline stays buffered. -/
def processBuf (buf : List Char) : List (List Char) × List Char :=
  match hbl : breakLine buf with
  | none => ([], buf)
  | some (line, rest) =>
    have : rest.length < buf.length := by
      clear processBuf
      induction buf generalizing line rest with
      | nil => simp [breakLine] at hbl
      | cons c t ih =>
        rw [breakLine] at hbl
        split at hbl
        · simp only [Option.some.injEq, Prod.mk.injEq] at hbl
          obtain ⟨-, h2⟩ := hbl
          subst h2
          simp
        · simp only [Option.map_eq_some'] at hbl
          obtain ⟨p, hp, h2⟩ := hbl
          have hlt := ih p.1 p.2 hp
          have h3 : rest = p.2 := by
            have := congrArg Prod.snd h2
            simpa using this.symm
          subst h3
          simp only [List.length_cons]
          omega
    let res := processBuf rest
    (emitLine line ++ res.1, res.2)
termination_by buf.length

/-- One read-loop iteration, line-processing part: append the freshly
read chunk to `lineBuf` and extract all complete lines. -/
def readChunk (lineBuf chunk : List Char) : List (List Char) × List Char :=
  processBuf (lineBuf ++ chunk)

/-- Feed a sequence of read chunks through the loop, collecting the
dispatched frames in order together with the final buffer. -/
def feedChunks (lineBuf : List Char) : List (List Char) → List (List Char) × List Char
  | [] => ([], lineBuf)
  | chunk :: rest =>
    let st := readChunk lineBuf chunk
    let st2 := feedChunks st.2 rest
    (st.1 ++ st2.1, st2.2)

/-! ## Readiness Gate (`gsmReady`, `gsmWaiters`)

All gate operations in the source run under `gsmMu`, so each is modelled
as one atomic step on the gate state.  `notified` records waiter channels
that received their one-shot notification (the buffered, fresh channel
makes the non-blocking send succeed); `immediate` records registrations
that observed the ready flag and returned `true` without blocking. -/

def connectedWord : List Char := ['c', 'o', 'n', 'n', 'e', 'c', 't', 'e', 'd']

structure GSMGate where
  gsmReady : Bool
  gsmWaiters : List Nat
  notified : List Nat
  immediate : List Nat
deriving DecidableEq

/-- `updateGSMState`: set `gsmReady = (state == "connected")`; return if
unchanged; on a transition to ready, notify every pending waiter and
clear the waiter list. -/
def updateGSMState (g : GSMGate) (state : List Char) : GSMGate :=
  let wasReady := g.gsmReady
  let g1 := { g with gsmReady := state == connectedWord }
  if g1.gsmReady == wasReady then g1
  else if g1.gsmReady then
    { g1 with notified := g1.notified ++ g1.gsmWaiters, gsmWaiters := [] }
  else g1

/-- `IsGSMReady` under `gsmMu.RLock`. -/
def IsGSMReady (g : GSMGate) : Bool := g.gsmReady

/-- Outcome of `WaitForGSM`'s lock-held registration step. -/
inductive WaitOutcome where
  /-- The flag was set: return `true` at once, registering nothing. -/
  | ready
  /-- A fresh waiter channel was appended; the caller then blocks on it
  until a notification or the timeout. -/
  | registered
deriving DecidableEq

/-- `WaitForGSM(timeout)`: under `gsmMu`, if already ready return `true`
immediately, else append a one-shot waiter and block outside the lock. -/
def WaitForGSM (g : GSMGate) (w : Nat) (timeout : Nat) : WaitOutcome × GSMGate :=
  if g.gsmReady then (WaitOutcome.ready, g)
  else (WaitOutcome.registered, { g with gsmWaiters := g.gsmWaiters ++ [w] })

/-! ## Session outbound commands (`Wakeup`, `Ping`, `SendSMS`)

Transport writes are modelled by a `writeOk` oracle; the arrival of a
ready frame during the blocking wait by a `readyWithin` oracle indexed by
the timeout in seconds.  Each operation returns its error (if any) and
the list of byte strings written to the transport, in order. -/

structure ConnState where
  connected : Bool
  gsmReady : Bool
deriving DecidableEq

inductive SerialError where
  /-- "not connected to Arduino" -/
  | notConnected
  /-- a transport write failed -/
  | writeFailed
  /-- "GSM did not become ready within <timeout>" -/
  | gsmNotReady
deriving DecidableEq

/-- The literal `{"cmd":"wakeup"}\n` written by `Wakeup`. -/
def wakeupLine : List Char :=
  '{' :: ['"', 'c', 'm', 'd', '"', ':', '"', 'w', 'a', 'k', 'e', 'u', 'p', '"'] ++ ['}', '\n']

def pingWord : List Char := ['p', 'i', 'n', 'g']

/-- `Wakeup`: fails with not-connected before writing; otherwise writes
the wakeup command and fails only if the write fails. -/
def Wakeup (st : ConnState) (writeOk : Bool) : Option SerialError × List (List Char) :=
  if st.connected = false then (some SerialError.notConnected, [])
  else if writeOk then (none, [wakeupLine])
  else (some SerialError.writeFailed, [wakeupLine])

/-- `Ping`: marshals `{"cmd":"ping"}`, appends the newline and writes it —
with no connectedness check. -/
def Ping (st : ConnState) (writeOk : Bool) : Option SerialError × List (List Char) :=
  let data := jsonMarshal ⟨pingWord, [], []⟩ ++ ['\n']
  if writeOk then (none, [data])
  else (some SerialError.writeFailed, [data])

/-- `EnsureGSMReady(timeout)`: nothing to do when ready; otherwise wake
the device and wait for the ready transition within the timeout. -/
def EnsureGSMReady (st : ConnState) (writeOk : Bool) (readyWithin : Nat → Bool)
    (timeout : Nat) : Option SerialError × List (List Char) :=
  if st.gsmReady then (none, [])
  else
    match Wakeup st writeOk with
    | (some e, ws) => (some e, ws)
    | (none, ws) =>
      if readyWithin timeout then (none, ws)
      else (some SerialError.gsmNotReady, ws)

/-- `SendSMS`: ensure readiness with a 30-second deadline, then (under the
write lock) check connectedness, marshal the command with the newline
terminator and write it. -/
def SendSMS (st : ConnState) (writeOk : Bool) (readyWithin : Nat → Bool)
    (sendWriteOk : Bool) (number content : List Char) :
    Option SerialError × List (List Char) :=
  match EnsureGSMReady st writeOk readyWithin 30 with
  | (some e, ws) => (some e, ws)
  | (none, ws) =>
    if st.connected = false then (some SerialError.notConnected, ws)
    else if sendWriteOk then (none, ws ++ [sendCmdData number content])
    else (some SerialError.writeFailed, ws ++ [sendCmdData number content])

/-! ## Reconnection Supervisor (`attemptReconnection` single-flight) -/

structure ReconnState where
  reconnecting : Bool
  activeRuns : Nat
deriving DecidableEq

/-- Entry gate of `attemptReconnection` (under `reconnectMu`): a trigger
that observes `reconnecting` returns immediately as a no-op; otherwise it
sets the flag and becomes the single active retry loop.  The Bool records
whether a new run started. -/
def attemptReconnectionEnter (s : ReconnState) : Bool × ReconnState :=
  if s.reconnecting then (false, s)
  else (true, { reconnecting := true, activeRuns := s.activeRuns + 1 })

/-- The deferred cleanup run when an active retry loop returns. -/
def attemptReconnectionExit (s : ReconnState) : ReconnState :=
  { reconnecting := false, activeRuns := s.activeRuns - 1 }

/-- At most one run active, and exactly when the flag is set. -/
def reconnInv (s : ReconnState) : Prop :=
  s.activeRuns ≤ 1 ∧ (s.reconnecting = true ↔ s.activeRuns = 1)

/-! ## Read-loop error handling (`handleDisconnection`) -/

structure SessionState where
  connected : Bool
  gsmReady : Bool
  shouldReconnect : Bool
deriving DecidableEq

/-- `handleDisconnection`: no-op when already disconnected; otherwise mark
the session disconnected, clear the GSM-ready flag, and (when reconnection
is enabled) spawn `attemptReconnection`.  The Bool records the spawn. -/
def handleDisconnection (s : SessionState) : SessionState × Bool :=
  if s.connected = false then (s, false)
  else ({ s with connected := false, gsmReady := false }, s.shouldReconnect)

/-- Transport read errors as the read loop distinguishes them. -/
inductive ReadErr where
  | timeout
  | fatal
  | other
deriving DecidableEq

/-- Error handling of one read-loop iteration: timeouts are normal, a
fatal (port-closed) error triggers `handleDisconnection` while connected,
any other error is only logged. -/
def readLoopErrStep (s : SessionState) (e : ReadErr) : SessionState × Bool :=
  match e with
  | ReadErr.timeout => (s, false)
  | ReadErr.fatal => if s.connected then handleDisconnection s else (s, false)
  | ReadErr.other => (s, false)

/-! ## Session shutdown (`Close`) -/

structure CloseState where
  shouldReconnect : Bool
  connected : Bool
  stopChanClosed : Bool
  stopOnceDone : Bool
  closeSignals : Nat
  panicked : Bool
deriving DecidableEq

/-- `Close`: disable reconnection, mark disconnected, and close `stopChan`
through `sync.Once` so the cancellation signal is delivered exactly once.
Closing an already-closed Go channel panics; `panicked` records whether
that ever happened. -/
def CloseSession (st : CloseState) : CloseState :=
  let st1 := { st with shouldReconnect := false, connected := false }
  if st1.stopOnceDone then st1
  else
    let st2 := { st1 with stopOnceDone := true }
    if st2.stopChanClosed then { st2 with panicked := true }
    else { st2 with stopChanClosed := true, closeSignals := st2.closeSignals + 1 }

/-- The state of a freshly constructed connection. -/
def initCloseState : CloseState :=
  { shouldReconnect := true, connected := true, stopChanClosed := false,
    stopOnceDone := false, closeSignals := 0, panicked := false }

/-- The state after a successful shutdown. -/
def closedState : CloseState :=
  { shouldReconnect := false, connected := false, stopChanClosed := true,
    stopOnceDone := true, closeSignals := 1, panicked := false }

/-! ## Received-message handling (`handleReceivedSMS`) -/

structure SerialResponse where
  Status : List Char
  Message : List Char
  Event : List Char
  Number : List Char
  Content : List Char
  Time : List Char
  GSM : List Char
deriving DecidableEq

structure ReceivedRecord where
  number : List Char
  content : List Char
  receivedAt : Nat
deriving DecidableEq

/-- `handleReceivedSMS`: the timestamp stored in the database and passed
to the `onReceived` callback is `time.Now()` at dispatch; the frame's own
`timestamp` field sits parsed in `response.Time` but is never read.
Returns the database record and the callback record. -/
def handleReceivedSMS (response : SerialResponse) (now : Nat) :
    ReceivedRecord × ReceivedRecord :=
  let timestamp := now
  (⟨response.Number, response.Content, timestamp⟩,
   ⟨response.Number, response.Content, timestamp⟩)

/-! # Theorems -/

theorem plainChar.ne_quote {c : Char} (h : plainChar c) : c ≠ '"' := h.1

theorem plainChar.ne_nl {c : Char} (h : plainChar c) : c ≠ '\n' := by
  intro e; rw [e] at h; exact absurd h.2.2.1 (by decide)

theorem goEscapeChar_plain {c : Char} (h : plainChar c) : goEscapeChar c = [c] := by
  obtain ⟨h1, h2, h3, h4, h5, h6, h7, h8⟩ := h
  have hn : c ≠ '\n' := by intro e; rw [e] at h3; exact absurd h3 (by decide)
  have hr : c ≠ '\r' := by intro e; rw [e] at h3; exact absurd h3 (by decide)
  have ht : c ≠ '\t' := by intro e; rw [e] at h3; exact absurd h3 (by decide)
  have hlt : ¬ c.toNat < 0x20 := by omega
  rw [goEscapeChar, if_neg h1, if_neg h2, if_neg hn, if_neg hr, if_neg ht, if_neg hlt,
      if_neg h4, if_neg h5, if_neg h6, if_neg h7, if_neg h8]

theorem flatten_map_plain {s : List Char} (h : ∀ c ∈ s, plainChar c) :
    (s.map goEscapeChar).flatten = s := by
  induction s with
  | nil => rfl
  | cons c s ih =>
    simp only [List.map_cons, List.flatten_cons,
      goEscapeChar_plain (h c (List.mem_cons_self c s)),
      ih (fun d hd => h d (List.mem_cons_of_mem _ hd)), List.singleton_append]

theorem goQuoteString_plain {s : List Char} (h : ∀ c ∈ s, plainChar c) :
    goQuoteString s = '"' :: s ++ ['"'] := by
  unfold goQuoteString
  rw [flatten_map_plain h]

/-! ### First-occurrence lemmas for `idxOfSub` -/

theorem idxOfSub_of_pref {pat hay : List Char} (h : pat <+: hay) :
    idxOfSub pat hay = some 0 := by
  cases hay with
  | nil => simp [idxOfSub, List.prefix_nil.mp h]
  | cons c t => simp [idxOfSub, h]

theorem idxOfSub_cons_of_not {pat : List Char} {c : Char} {t : List Char}
    (h : ¬ pat <+: c :: t) :
    idxOfSub pat (c :: t) = (idxOfSub pat t).map (· + 1) := by
  simp [idxOfSub, h]

/-- Searching for a pattern beginning with `p` skips over any block of
characters different from `p`. -/
theorem idxOfSub_skip {p : Char} {ps : List Char} (xs rest : List Char)
    (h : ∀ c ∈ xs, c ≠ p) :
    idxOfSub (p :: ps) (xs ++ rest) = (idxOfSub (p :: ps) rest).map (· + xs.length) := by
  induction xs with
  | nil => cases hh : idxOfSub (p :: ps) rest <;> simp [hh]
  | cons x xs ih =>
    have hx : x ≠ p := h x (List.mem_cons_self x xs)
    have hnp : ¬ (p :: ps <+: x :: (xs ++ rest)) := by
      rw [List.cons_prefix_cons]
      rintro ⟨rfl, -⟩; exact hx rfl
    rw [List.cons_append, idxOfSub_cons_of_not hnp,
      ih (fun c hc => h c (List.mem_cons_of_mem _ hc))]
    cases idxOfSub (p :: ps) rest <;> simp <;> omega

/-- If the pattern occurs nowhere (at no offset), the search fails. -/
theorem idxOfSub_eq_none {pat : List Char} (hne : pat ≠ []) :
    ∀ hay : List Char, (∀ k, ¬ pat <+: hay.drop k) → idxOfSub pat hay = none := by
  intro hay
  induction hay with
  | nil => intro _; simp [idxOfSub, hne]
  | cons c t ih =>
    intro h
    rw [idxOfSub_cons_of_not (by simpa using h 0),
      ih (fun k => by simpa using h (k + 1))]
    rfl

/-- If the pattern occurs at offset `A.length` and at no earlier offset,
the search returns exactly `A.length`. -/
theorem idxOfSub_append_self (pat : List Char) :
    ∀ (A B : List Char), (∀ k < A.length, ¬ pat <+: (A.drop k ++ (pat ++ B))) →
      idxOfSub pat (A ++ (pat ++ B)) = some A.length := by
  intro A
  induction A with
  | nil => intro B _; simpa using idxOfSub_of_pref (List.prefix_append pat B)
  | cons a A ih =>
    intro B h
    have h0 : ¬ pat <+: a :: (A ++ (pat ++ B)) := by simpa using h 0 (by simp)
    rw [List.cons_append, idxOfSub_cons_of_not h0,
      ih B (fun k hk => by simpa using h (k + 1) (by simpa using Nat.succ_lt_succ hk))]
    simp

/-- A pattern of the form `p ++ '"' ++ pb` can only match a haystack
`xs ++ '"' ++ yb` (with `p` and `xs` quote-free) by aligning the quotes. -/
theorem quote_align {p : List Char} (pb : List Char) :
    ∀ {xs : List Char} (yb : List Char),
      (∀ c ∈ p, c ≠ '"') → (∀ c ∈ xs, c ≠ '"') →
      (p ++ '"' :: pb <+: xs ++ '"' :: yb) → p = xs ∧ pb <+: yb := by
  induction p with
  | nil =>
    intro xs yb _ hxs h
    cases xs with
    | nil => simpa using h
    | cons x xs =>
      rw [List.nil_append, List.cons_append, List.cons_prefix_cons] at h
      exact absurd h.1.symm (hxs x (List.mem_cons_self x xs))
  | cons a p ih =>
    intro xs yb hp hxs h
    cases xs with
    | nil =>
      rw [List.cons_append, List.nil_append, List.cons_prefix_cons] at h
      exact absurd h.1 (hp a (List.mem_cons_self a p))
    | cons x xs =>
      rw [List.cons_append, List.cons_append, List.cons_prefix_cons] at h
      obtain ⟨rfl, h2⟩ := h
      obtain ⟨rfl, h3⟩ := ih yb (fun c hc => hp c (List.mem_cons_of_mem _ hc))
        (fun c hc => hxs c (List.mem_cons_of_mem _ hc)) h2
      exact ⟨rfl, h3⟩

/-- Reduce `extractJSONValue` when the key's first occurrence is known and
the text after it is a quote-free value followed by a quote. -/
theorem extractJSONValue_found {json key V rest : List Char} {i : Nat}
    (h1 : idxOfSub (quotePat key) json = some i)
    (h2 : json.drop (i + (quotePat key).length) = V ++ ('"' :: rest))
    (hV : ∀ c ∈ V, c ≠ '"') :
    extractJSONValue json key = V := by
  unfold extractJSONValue
  rw [h1]
  simp only
  rw [h2, idxOfSub_skip V ('"' :: rest) hV,
    idxOfSub_of_pref (⟨rest, rfl⟩ : ['"'] <+: '"' :: rest)]
  simp [List.take_left]

/-- `extractJSONValue` returns the empty string when the key is absent. -/
theorem extractJSONValue_notfound {json key : List Char}
    (h1 : idxOfSub (quotePat key) json = none) :
    extractJSONValue json key = [] := by
  unfold extractJSONValue
  rw [h1]

/-- `"number":"` does not match at any offset inside `gwHead`. -/
theorem numberPat_headscan (B : List Char) :
    ∀ k < gwHead.length, ¬ quotePat numberKey <+: (gwHead.drop k ++ (quotePat numberKey ++ B)) := by
  intro k hk
  rw [gwHead] at hk
  simp only [List.length_cons, List.length_nil] at hk
  interval_cases k <;>
    simp [gwHead, quotePat, numberKey, List.cons_prefix_cons]

/-- `"content":"` does not match at any offset inside `gwHead`. -/
theorem contentPat_headscan (B : List Char) :
    ∀ k < gwHead.length, ¬ quotePat contentKey <+: (gwHead.drop k ++ (quotePat contentKey ++ B)) := by
  intro k hk
  rw [gwHead] at hk
  simp only [List.length_cons, List.length_nil] at hk
  interval_cases k <;>
    simp [gwHead, quotePat, contentKey, List.cons_prefix_cons]

/-- `"send"` serializes verbatim. -/
theorem goQuoteSend : goQuoteString ['s', 'e', 'n', 'd'] = ['"', 's', 'e', 'n', 'd', '"'] := by
  decide

/-- Extracting `number` from the full marshalled command (both fields
present) recovers the number. -/
theorem extract_number_full {N C : List Char}
    (hN : ∀ c ∈ N, plainChar c) (hC : ∀ c ∈ C, plainChar c)
    (hNne : N ≠ []) (hCne : C ≠ []) :
    extractJSONValue (jsonMarshal ⟨sendWord, N, C⟩) numberKey = N := by
  have hshape : jsonMarshal ⟨sendWord, N, C⟩ =
      gwHead ++ (quotePat numberKey ++
        (N ++ ('"' :: (',' :: (quotePat contentKey ++ (C ++ ['"', '}'])))))) := by
    simp [jsonMarshal, goKey, goQuoteSend,
      goQuoteString_plain hN, goQuoteString_plain hC, hNne, hCne,
      gwHead, quotePat, numberKey, contentKey, cmdKey, sendWord]
  have h1 : idxOfSub (quotePat numberKey) (jsonMarshal ⟨sendWord, N, C⟩) = some 14 := by
    rw [hshape]
    have h := idxOfSub_append_self (quotePat numberKey) gwHead
      (N ++ ('"' :: (',' :: (quotePat contentKey ++ (C ++ ['"', '}'])))))
      (numberPat_headscan _)
    simpa [gwHead] using h
  have h2 : (jsonMarshal ⟨sendWord, N, C⟩).drop (14 + (quotePat numberKey).length) =
      N ++ ('"' :: (',' :: (quotePat contentKey ++ (C ++ ['"', '}'])))) := by
    rw [hshape,
      show gwHead ++ (quotePat numberKey ++
          (N ++ ('"' :: (',' :: (quotePat contentKey ++ (C ++ ['"', '}'])))))) =
        (gwHead ++ quotePat numberKey) ++
          (N ++ ('"' :: (',' :: (quotePat contentKey ++ (C ++ ['"', '}']))))) from by
        simp]
    exact List.drop_left'
      (by decide : (gwHead ++ quotePat numberKey).length = 14 + (quotePat numberKey).length)
  exact extractJSONValue_found h1 h2 (fun c hc => (hN c hc).1)

/-- Extracting `content` from the full marshalled command (both fields
present) recovers the content. -/
theorem extract_content_full {N C : List Char}
    (hN : ∀ c ∈ N, plainChar c) (hC : ∀ c ∈ C, plainChar c)
    (hNne : N ≠ []) (hCne : C ≠ []) :
    extractJSONValue (jsonMarshal ⟨sendWord, N, C⟩) contentKey = C := by
  have hshape : jsonMarshal ⟨sendWord, N, C⟩ =
      (gwNumHead ++ (N ++ ['"', ','])) ++ (quotePat contentKey ++ (C ++ ['"', '}'])) := by
    simp [jsonMarshal, goKey, goQuoteSend,
      goQuoteString_plain hN, goQuoteString_plain hC, hNne, hCne,
      gwNumHead, quotePat, numberKey, contentKey, cmdKey, sendWord]
  have hscan : ∀ k < (gwNumHead ++ (N ++ ['"', ','])).length,
      ¬ quotePat contentKey <+:
        ((gwNumHead ++ (N ++ ['"', ','])).drop k ++ (quotePat contentKey ++ (C ++ ['"', '}']))) := by
    intro k hk
    have hlenA : (gwNumHead ++ (N ++ ['"', ','])).length = 26 + N.length := by
      simp [gwNumHead]; omega
    rw [hlenA] at hk
    by_cases h23 : k < 23
    · rw [List.drop_append_of_le_length (by simp [gwNumHead]; omega)]
      interval_cases k <;> simp [gwNumHead, quotePat, contentKey, List.cons_prefix_cons]
    by_cases h23e : k = 23
    · subst h23e
      rw [List.drop_append_of_le_length (by simp [gwNumHead]),
        show gwNumHead.drop 23 = ['"'] from by decide,
        show (['"'] ++ (N ++ ['"', ','])) ++ (quotePat contentKey ++ (C ++ ['"', '}'])) =
          '"' :: (N ++ ('"' :: (',' :: (quotePat contentKey ++ (C ++ ['"', '}']))))) from by simp]
      intro hpre
      simp only [quotePat, List.cons_append, List.append_assoc] at hpre
      rw [List.cons_prefix_cons] at hpre
      obtain ⟨-, hpre⟩ := hpre
      obtain ⟨-, hpre2⟩ := quote_align [':', '"'] _
        (by decide) (fun c hc => (hN c hc).1) hpre
      rw [List.cons_prefix_cons] at hpre2
      exact absurd hpre2.1 (by decide)
    by_cases hmid : k < 24 + N.length
    · obtain ⟨j, rfl⟩ : ∃ j, k = 24 + j := ⟨k - 24, by omega⟩
      have hj : j < N.length := by omega
      rw [show (24 + j) = gwNumHead.length + j from by simp [gwNumHead], List.drop_append,
        List.drop_append_of_le_length (le_of_lt hj), List.drop_eq_getElem_cons hj]
      intro hpre
      simp only [quotePat, List.cons_append, List.append_assoc] at hpre
      rw [List.cons_prefix_cons] at hpre
      exact absurd hpre.1.symm ((hN _ (List.getElem_mem hj)).1)
    by_cases hq : k = 24 + N.length
    · subst hq
      rw [show (24 + N.length) = gwNumHead.length + N.length from by simp [gwNumHead],
        List.drop_append, show (N ++ ['"', ',']).drop N.length = ['"', ','] from
          List.drop_left N ['"', ',']]
      simp [quotePat, contentKey, List.cons_prefix_cons]
    have hq2 : k = 25 + N.length := by omega
    subst hq2
    rw [show (25 + N.length) = gwNumHead.length + (N.length + 1) from by simp [gwNumHead]; omega,
      List.drop_append, show (N ++ ['"', ',']).drop (N.length + 1) = [','] from by
        rw [List.drop_append 1]; rfl]
    simp [quotePat, contentKey, List.cons_prefix_cons]
  have h1 : idxOfSub (quotePat contentKey) (jsonMarshal ⟨sendWord, N, C⟩) =
      some (gwNumHead ++ (N ++ ['"', ','])).length := by
    rw [hshape]
    exact idxOfSub_append_self (quotePat contentKey) _ _ hscan
  have h2 : (jsonMarshal ⟨sendWord, N, C⟩).drop
      ((gwNumHead ++ (N ++ ['"', ','])).length + (quotePat contentKey).length) =
      C ++ ('"' :: ['}']) := by
    rw [hshape,
      show (gwNumHead ++ (N ++ ['"', ','])) ++ (quotePat contentKey ++ (C ++ ['"', '}'])) =
        ((gwNumHead ++ (N ++ ['"', ','])) ++ quotePat contentKey) ++ (C ++ ['"', '}']) from by
        simp,
      List.drop_left' (by simp; omega)]
  exact extractJSONValue_found h1 h2 (fun c hc => (hC c hc).1)

/-- Extracting `number` when the content field is omitted. -/
theorem extract_number_noC {N : List Char}
    (hN : ∀ c ∈ N, plainChar c) (hNne : N ≠ []) :
    extractJSONValue (jsonMarshal ⟨sendWord, N, []⟩) numberKey = N := by
  have hshape : jsonMarshal ⟨sendWord, N, []⟩ =
      gwHead ++ (quotePat numberKey ++ (N ++ ('"' :: ['}']))) := by
    simp [jsonMarshal, goKey, goQuoteSend, goQuoteString_plain hN, hNne,
      gwHead, quotePat, numberKey, cmdKey, sendWord]
  have h1 : idxOfSub (quotePat numberKey) (jsonMarshal ⟨sendWord, N, []⟩) = some 14 := by
    rw [hshape]
    have h := idxOfSub_append_self (quotePat numberKey) gwHead (N ++ ('"' :: ['}']))
      (numberPat_headscan _)
    simpa [gwHead] using h
  have h2 : (jsonMarshal ⟨sendWord, N, []⟩).drop (14 + (quotePat numberKey).length) =
      N ++ ('"' :: ['}']) := by
    rw [hshape,
      show gwHead ++ (quotePat numberKey ++ (N ++ ('"' :: ['}']))) =
        (gwHead ++ quotePat numberKey) ++ (N ++ ('"' :: ['}'])) from by simp]
    exact List.drop_left' (by decide)
  exact extractJSONValue_found h1 h2 (fun c hc => (hN c hc).1)

/-- Extracting `content` when the number field is omitted. -/
theorem extract_content_noN {C : List Char}
    (hC : ∀ c ∈ C, plainChar c) (hCne : C ≠ []) :
    extractJSONValue (jsonMarshal ⟨sendWord, [], C⟩) contentKey = C := by
  have hshape : jsonMarshal ⟨sendWord, [], C⟩ =
      gwHead ++ (quotePat contentKey ++ (C ++ ('"' :: ['}']))) := by
    simp [jsonMarshal, goKey, goQuoteSend, goQuoteString_plain hC, hCne,
      gwHead, quotePat, contentKey, cmdKey, sendWord]
  have h1 : idxOfSub (quotePat contentKey) (jsonMarshal ⟨sendWord, [], C⟩) = some 14 := by
    rw [hshape]
    have h := idxOfSub_append_self (quotePat contentKey) gwHead (C ++ ('"' :: ['}']))
      (contentPat_headscan _)
    simpa [gwHead] using h
  have h2 : (jsonMarshal ⟨sendWord, [], C⟩).drop (14 + (quotePat contentKey).length) =
      C ++ ('"' :: ['}']) := by
    rw [hshape,
      show gwHead ++ (quotePat contentKey ++ (C ++ ('"' :: ['}']))) =
        (gwHead ++ quotePat contentKey) ++ (C ++ ('"' :: ['}'])) from by simp]
    exact List.drop_left' (by decide)
  exact extractJSONValue_found h1 h2 (fun c hc => (hC c hc).1)

/-- The key `"number":"` does not occur at all when the number field is
omitted, so extraction returns the empty string. -/
theorem extract_number_noN {C : List Char}
    (hC : ∀ c ∈ C, plainChar c) (hCne : C ≠ []) :
    extractJSONValue (jsonMarshal ⟨sendWord, [], C⟩) numberKey = [] := by
  apply extractJSONValue_notfound
  have hshape : jsonMarshal ⟨sendWord, [], C⟩ =
      gwConHead ++ (C ++ ('"' :: ['}'])) := by
    simp [jsonMarshal, goKey, goQuoteSend, goQuoteString_plain hC, hCne,
      gwConHead, cmdKey, sendWord]
  rw [hshape]
  apply idxOfSub_eq_none (by decide)
  intro k
  by_cases h24 : k < 24
  · rw [List.drop_append_of_le_length (by simp [gwConHead]; omega)]
    interval_cases k <;> simp [gwConHead, quotePat, numberKey, List.cons_prefix_cons]
  by_cases h24e : k = 24
  · subst h24e
    rw [List.drop_append_of_le_length (by simp [gwConHead]),
      show gwConHead.drop 24 = ['"'] from by decide]
    intro hpre
    simp only [quotePat, List.cons_append, List.append_assoc, List.singleton_append] at hpre
    rw [List.cons_prefix_cons] at hpre
    obtain ⟨-, hpre⟩ := hpre
    obtain ⟨-, hpre2⟩ := quote_align [':', '"'] _ (by decide) (fun c hc => (hC c hc).1) hpre
    rw [List.cons_prefix_cons] at hpre2
    exact absurd hpre2.1 (by decide)
  by_cases hmid : k < 25 + C.length
  · obtain ⟨j, rfl⟩ : ∃ j, k = 25 + j := ⟨k - 25, by omega⟩
    have hj : j < C.length := by omega
    rw [show (25 + j) = gwConHead.length + j from by simp [gwConHead], List.drop_append,
      List.drop_append_of_le_length (le_of_lt hj), List.drop_eq_getElem_cons hj]
    intro hpre
    simp only [quotePat, List.cons_append, List.append_assoc] at hpre
    rw [List.cons_prefix_cons] at hpre
    exact absurd hpre.1.symm ((hC _ (List.getElem_mem hj)).1)
  by_cases hq : k = 25 + C.length
  · subst hq
    rw [show (25 + C.length) = gwConHead.length + C.length from by simp [gwConHead],
      List.drop_append, show (C ++ ('"' :: ['}'])).drop C.length = '"' :: ['}'] from
        List.drop_left C _]
    simp [quotePat, numberKey, List.cons_prefix_cons]
  by_cases hq2 : k = 26 + C.length
  · subst hq2
    rw [show (26 + C.length) = gwConHead.length + (C.length + 1) from by
        simp [gwConHead]; omega,
      List.drop_append, show (C ++ ('"' :: ['}'])).drop (C.length + 1) = ['}'] from by
        rw [List.drop_append 1]; rfl]
    simp [quotePat, numberKey, List.cons_prefix_cons]
  · rw [List.drop_of_length_le (by simp [gwConHead]; omega)]
    simp [List.prefix_nil, quotePat]

/-- The key `"content":"` does not occur at all when the content field is
omitted, so extraction returns the empty string. -/
theorem extract_content_noC {N : List Char}
    (hN : ∀ c ∈ N, plainChar c) (hNne : N ≠ []) :
    extractJSONValue (jsonMarshal ⟨sendWord, N, []⟩) contentKey = [] := by
  apply extractJSONValue_notfound
  have hshape : jsonMarshal ⟨sendWord, N, []⟩ =
      gwNumHead ++ (N ++ ('"' :: ['}'])) := by
    simp [jsonMarshal, goKey, goQuoteSend, goQuoteString_plain hN, hNne,
      gwNumHead, cmdKey, sendWord]
  rw [hshape]
  apply idxOfSub_eq_none (by decide)
  intro k
  by_cases h23 : k < 23
  · rw [List.drop_append_of_le_length (by simp [gwNumHead]; omega)]
    interval_cases k <;> simp [gwNumHead, quotePat, contentKey, List.cons_prefix_cons]
  by_cases h23e : k = 23
  · subst h23e
    rw [List.drop_append_of_le_length (by simp [gwNumHead]),
      show gwNumHead.drop 23 = ['"'] from by decide]
    intro hpre
    simp only [quotePat, List.cons_append, List.append_assoc, List.singleton_append] at hpre
    rw [List.cons_prefix_cons] at hpre
    obtain ⟨-, hpre⟩ := hpre
    obtain ⟨-, hpre2⟩ := quote_align [':', '"'] _ (by decide) (fun c hc => (hN c hc).1) hpre
    rw [List.cons_prefix_cons] at hpre2
    exact absurd hpre2.1 (by decide)
  by_cases hmid : k < 24 + N.length
  · obtain ⟨j, rfl⟩ : ∃ j, k = 24 + j := ⟨k - 24, by omega⟩
    have hj : j < N.length := by omega
    rw [show (24 + j) = gwNumHead.length + j from by simp [gwNumHead], List.drop_append,
      List.drop_append_of_le_length (le_of_lt hj), List.drop_eq_getElem_cons hj]
    intro hpre
    simp only [quotePat, List.cons_append, List.append_assoc] at hpre
    rw [List.cons_prefix_cons] at hpre
    exact absurd hpre.1.symm ((hN _ (List.getElem_mem hj)).1)
  by_cases hq : k = 24 + N.length
  · subst hq
    rw [show (24 + N.length) = gwNumHead.length + N.length from by simp [gwNumHead],
      List.drop_append, show (N ++ ('"' :: ['}'])).drop N.length = '"' :: ['}'] from
        List.drop_left N _]
    simp [quotePat, contentKey, List.cons_prefix_cons]
  by_cases hq2 : k = 25 + N.length
  · subst hq2
    rw [show (25 + N.length) = gwNumHead.length + (N.length + 1) from by
        simp [gwNumHead]; omega,
      List.drop_append, show (N ++ ('"' :: ['}'])).drop (N.length + 1) = ['}'] from by
        rw [List.drop_append 1]; rfl]
    simp [quotePat, contentKey, List.cons_prefix_cons]
  · rw [List.drop_of_length_le (by simp [gwNumHead]; omega)]
    simp [List.prefix_nil, quotePat]

/-- Extraction from the fully-empty command. -/
theorem extract_number_empty :
    extractJSONValue (jsonMarshal ⟨sendWord, [], []⟩) numberKey = [] := by
  decide

theorem extract_content_empty :
    extractJSONValue (jsonMarshal ⟨sendWord, [], []⟩) contentKey = [] := by
  decide

/-! ### Line assembly on the peer side -/

theorem takeWhile_newline {m : List Char} (h : ∀ c ∈ m, c ≠ '\n') :
    (m ++ ['\n']).takeWhile (fun c => c != '\n') = m := by
  induction m with
  | nil => simp
  | cons c t ih =>
    have hc : (c != '\n') = true := by
      simpa using h c (List.mem_cons_self c t)
    simp only [List.cons_append, List.takeWhile_cons, hc, if_true,
      ih (fun d hd => h d (List.mem_cons_of_mem _ hd))]

/-- A brace-delimited line has no surrounding whitespace to trim. -/
theorem trimWS_braced (X : List Char) :
    trimWS (('{' :: X) ++ ['}']) = ('{' :: X) ++ ['}'] := by
  have h1 : (('{' :: X) ++ ['}']).dropWhile isSpaceGo = ('{' :: X) ++ ['}'] := by
    simp [List.dropWhile_cons, isSpaceGo]
  have h2 : (('{' :: X) ++ ['}']).reverse = '}' :: ('{' :: X).reverse := by
    simp
  have h3 : ('}' :: ('{' :: X).reverse).dropWhile isSpaceGo = '}' :: ('{' :: X).reverse := by
    simp [List.dropWhile_cons, isSpaceGo]
  rw [trimWS, h1, h2, h3]
  simp

/-- Every marshalled object is `'{' ... '}'`. -/
theorem jsonMarshal_shape (cmd : SerialCommand) :
    jsonMarshal cmd =
      ('{' :: ((goKey "cmd".toList ++ goQuoteString cmd.Cmd)
        ++ (if cmd.Number = [] then []
            else ',' :: goKey "number".toList ++ goQuoteString cmd.Number)
        ++ (if cmd.Content = [] then []
            else ',' :: goKey "content".toList ++ goQuoteString cmd.Content))) ++ ['}'] := by
  simp [jsonMarshal]

/-- The marshalled `send` command contains no newline when both values are
plain, so the peer's line assembly recovers exactly the marshalled object. -/
theorem jsonMarshal_send_no_nl {N C : List Char}
    (hN : ∀ c ∈ N, plainChar c) (hC : ∀ c ∈ C, plainChar c) :
    ∀ c ∈ jsonMarshal ⟨sendWord, N, C⟩, c ≠ '\n' := by
  intro c hmem he
  subst he
  by_cases hNe : N = []
  · by_cases hCe : C = []
    · subst hNe; subst hCe
      exact absurd hmem (by decide)
    · subst hNe
      simp [jsonMarshal, goKey, goQuoteSend, goQuoteString_plain hC, hCe, sendWord] at hmem
      exact absurd rfl ((hC _ hmem).ne_nl)
  · by_cases hCe : C = []
    · subst hCe
      simp [jsonMarshal, goKey, goQuoteSend, goQuoteString_plain hN, hNe, sendWord] at hmem
      exact absurd rfl ((hN _ hmem).ne_nl)
    · simp [jsonMarshal, goKey, goQuoteSend, goQuoteString_plain hN, goQuoteString_plain hC,
        hNe, hCe, sendWord] at hmem
      rcases hmem with hmem | hmem
      · exact absurd rfl ((hN _ hmem).ne_nl)
      · exact absurd rfl ((hC _ hmem).ne_nl)

/-- The peer's buffer-to-line stage is the identity on the marshalled
`send` command: split at the newline terminator, trim nothing. -/
theorem peerAssemble_sendCmd {N C : List Char}
    (hN : ∀ c ∈ N, plainChar c) (hC : ∀ c ∈ C, plainChar c) :
    peerAssemble (sendCmdData N C) = jsonMarshal ⟨sendWord, N, C⟩ := by
  unfold peerAssemble sendCmdData
  rw [takeWhile_newline (jsonMarshal_send_no_nl hN hC), jsonMarshal_shape, trimWS_braced,
    ← jsonMarshal_shape]

/-! ### Claim C1 -/

/-- **C1** (amended): serializing a `send` Command as the host does (JSON
object with `cmd:"send"`, `number`, `content`, newline-terminated) and
decoding it through the peer-side grammar (`extractJSONValue` applied to
keys `number` and `content`) yields the original `(number, content)` pair
for every pair of strings of plain characters — characters that are not
`"`, `\\`, control characters, `<`, `>`, `&`, or the Unicode line and
paragraph separators.  (As originally stated — including strings with
quote and backslash characters — the claim is false; see the
counterexample.) -/
theorem send_roundtrip {N C : List Char}
    (hN : ∀ c ∈ N, plainChar c) (hC : ∀ c ∈ C, plainChar c) :
    extractJSONValue (peerAssemble (sendCmdData N C)) numberKey = N ∧
    extractJSONValue (peerAssemble (sendCmdData N C)) contentKey = C := by
  rw [peerAssemble_sendCmd hN hC]
  by_cases hNe : N = []
  · by_cases hCe : C = []
    · subst hNe; subst hCe
      exact ⟨extract_number_empty, extract_content_empty⟩
    · subst hNe
      exact ⟨extract_number_noN hC hCe, extract_content_noN hC hCe⟩
  · by_cases hCe : C = []
    · subst hCe
      exact ⟨extract_number_noC hN hNe, extract_content_noC hN hNe⟩
    · exact ⟨extract_number_full hN hC hNe hCe, extract_content_full hN hC hNe hCe⟩

/-- Witness for C1 at a concrete plain input. -/
theorem send_roundtrip_witness :
    extractJSONValue (peerAssemble (sendCmdData ['+', '1', '5'] ['h', 'i'])) numberKey
      = ['+', '1', '5'] ∧
    extractJSONValue (peerAssemble (sendCmdData ['+', '1', '5'] ['h', 'i'])) contentKey
      = ['h', 'i'] :=
  send_roundtrip (by decide) (by decide)

/-- Counterexample to C1 as stated: for content `a"b` (a string containing
a quote) the peer-side grammar decodes the serialized command to `a\\`,
not `a"b` — `extractJSONValue` stops at the first `"` and never
unescapes. -/
theorem send_roundtrip_cex :
    extractJSONValue (peerAssemble (sendCmdData ['1'] ['a', '"', 'b'])) contentKey
      ≠ ['a', '"', 'b'] := by
  decide

theorem breakLine_rest_length :
    ∀ (buf line rest : List Char), breakLine buf = some (line, rest) →
      rest.length < buf.length := by
  intro buf
  induction buf with
  | nil => intro line rest h; simp [breakLine] at h
  | cons c t ih =>
    intro line rest h
    rw [breakLine] at h
    split at h
    · simp only [Option.some.injEq, Prod.mk.injEq] at h
      obtain ⟨-, h2⟩ := h
      subst h2
      simp
    · simp only [Option.map_eq_some'] at h
      obtain ⟨p, hp, h2⟩ := h
      have hlt := ih p.1 p.2 (by rw [hp])
      have h3 : rest = p.2 := by
        have := congrArg Prod.snd h2
        simpa using this.symm
      subst h3
      simp only [List.length_cons]
      omega

theorem processBuf_none {buf : List Char} (h : breakLine buf = none) :
    processBuf buf = ([], buf) := by
  rw [processBuf]
  split
  · rfl
  · rename_i line rest hbl
    simp [h] at hbl

theorem processBuf_some {buf line rest : List Char}
    (h : breakLine buf = some (line, rest)) :
    processBuf buf = (emitLine line ++ (processBuf rest).1, (processBuf rest).2) := by
  rw [processBuf]
  split
  · rename_i hbl
    simp [h] at hbl
  · rename_i line2 rest2 hbl
    rw [h] at hbl
    simp only [Option.some.injEq, Prod.mk.injEq] at hbl
    obtain ⟨h1, h2⟩ := hbl
    subst h1; subst h2
    rfl

theorem breakLine_none_iff {buf : List Char} :
    breakLine buf = none ↔ '\n' ∉ buf := by
  induction buf with
  | nil => simp [breakLine]
  | cons c t ih =>
    by_cases hc : c = '\n'
    · subst hc; simp [breakLine]
    · simp [breakLine, hc, Option.map_eq_none', ih, Ne.symm hc]

theorem breakLine_append_some {a : List Char} :
    ∀ {l r : List Char} (b : List Char), breakLine a = some (l, r) →
      breakLine (a ++ b) = some (l, r ++ b) := by
  induction a with
  | nil => intro l r b h; simp [breakLine] at h
  | cons c t ih =>
    intro l r b h
    rw [breakLine] at h
    rw [List.cons_append, breakLine]
    split at h
    · simp only [Option.some.injEq, Prod.mk.injEq] at h
      obtain ⟨h1, h2⟩ := h
      subst h1; subst h2
      simp_all
    · rename_i hc
      rw [if_neg hc]
      simp only [Option.map_eq_some'] at h
      obtain ⟨p, hp, h2⟩ := h
      obtain ⟨h1, h3⟩ : c :: p.1 = l ∧ p.2 = r := by
        constructor
        · exact congrArg Prod.fst h2
        · exact congrArg Prod.snd h2
      subst h1; subst h3
      rw [ih b (by rw [hp])]
      simp

theorem breakLine_append_none {a : List Char} :
    ∀ (b : List Char), breakLine a = none →
      breakLine (a ++ b) = (breakLine b).map (fun p => (a ++ p.1, p.2)) := by
  induction a with
  | nil =>
    intro b _
    cases hb : breakLine b with
    | none => simp [hb]
    | some p => simp [hb]
  | cons c t ih =>
    intro b h
    rw [breakLine] at h
    rw [List.cons_append, breakLine]
    split at h
    · exact absurd h (by simp)
    · rename_i hc
      rw [if_neg hc]
      simp only [Option.map_eq_none'] at h
      rw [ih b h]
      cases hb : breakLine b with
      | none => simp
      | some p => simp

/-- The residual buffer left by `processBuf` never contains a newline. -/
theorem processBuf_no_nl :
    ∀ (n : Nat) (buf : List Char), buf.length ≤ n → '\n' ∉ (processBuf buf).2 := by
  intro n
  induction n with
  | zero =>
    intro buf hb
    have : buf = [] := List.eq_nil_of_length_eq_zero (Nat.le_zero.mp hb)
    subst this
    rw [show processBuf ([] : List Char) = ([], []) from processBuf_none (by decide)]
    simp
  | succ n ih =>
    intro buf hb
    cases hbl : breakLine buf with
    | none =>
      rw [processBuf_none hbl]
      exact breakLine_none_iff.mp hbl
    | some p =>
      obtain ⟨line, rest⟩ := p
      rw [processBuf_some hbl]
      exact ih rest (by have := breakLine_rest_length buf line rest hbl; omega)

/-- Splitting the input at a chunk boundary commutes with line
processing: the frames from `a` come first, and the residue of `a` is
prepended to `b`. -/
theorem processBuf_append :
    ∀ (n : Nat) (a : List Char), a.length ≤ n → ∀ (b : List Char),
      processBuf (a ++ b) =
        ((processBuf a).1 ++ (processBuf ((processBuf a).2 ++ b)).1,
          (processBuf ((processBuf a).2 ++ b)).2) := by
  intro n
  induction n with
  | zero =>
    intro a ha b
    have : a = [] := List.eq_nil_of_length_eq_zero (Nat.le_zero.mp ha)
    subst this
    rw [show processBuf [] = ([], []) from processBuf_none (by decide)]
    simp
  | succ n ih =>
    intro a ha b
    cases hbl : breakLine a with
    | none =>
      rw [processBuf_none hbl]
      simp
    | some p =>
      obtain ⟨line, rest⟩ := p
      rw [processBuf_some hbl, processBuf_some (breakLine_append_some b hbl),
        ih rest (by have := breakLine_rest_length a line rest hbl; omega) b]
      simp [List.append_assoc]

/-- Feeding chunks one by one equals processing their concatenation in a
single pass, provided the starting buffer holds no complete line. -/
theorem feedChunks_flatten :
    ∀ (chunks : List (List Char)) (buf : List Char), '\n' ∉ buf →
      feedChunks buf chunks = processBuf (buf ++ chunks.flatten) := by
  intro chunks
  induction chunks with
  | nil =>
    intro buf hbuf
    rw [feedChunks, List.flatten_nil, List.append_nil,
      processBuf_none (breakLine_none_iff.mpr hbuf)]
  | cons c cs ih =>
    intro buf hbuf
    rw [feedChunks]
    simp only [readChunk]
    rw [ih _ (processBuf_no_nl (buf ++ c).length _ (Nat.le_refl _)),
      show buf ++ (c :: cs).flatten = (buf ++ c) ++ cs.flatten from by
        rw [List.flatten_cons, List.append_assoc],
      processBuf_append ((buf ++ c).length) _ (Nat.le_refl _) cs.flatten]

/-! ### Claim C6 -/

/-- **C6**: for every byte sequence and every partition of it into chunks,
feeding the chunks to the line codec dispatches exactly the same frames in
the same order as feeding the whole sequence at once (in particular, as
whole newline-terminated lines); every frame is dispatched whole in a
single `processBuf` step, and the partial trailing data left in the buffer
never contains a newline (it stays buffered for the next read). -/
theorem lineCodec_chunk_independence {bs : List Char} {chunks : List (List Char)}
    (h : chunks.flatten = bs) :
    feedChunks [] chunks = processBuf bs ∧ '\n' ∉ (feedChunks [] chunks).2 := by
  subst h
  have heq : feedChunks [] chunks = processBuf chunks.flatten := by
    simpa using feedChunks_flatten chunks [] (by simp)
  refine ⟨heq, ?_⟩
  rw [heq]
  exact processBuf_no_nl chunks.flatten.length _ (Nat.le_refl _)

/-- Witness for C6: the frame `{"a"}` split into awkward chunks equals the
single-pass result. -/
theorem lineCodec_chunk_independence_witness :
    feedChunks [] [['a', 'b'], ['\n', 'c'], ['d', '\n', 'e']]
        = processBuf ['a', 'b', '\n', 'c', 'd', '\n', 'e'] ∧
      '\n' ∉ (feedChunks [] [['a', 'b'], ['\n', 'c'], ['d', '\n', 'e']]).2 :=
  lineCodec_chunk_independence (by decide)

/-! ### Claims C2 and C3 -/

/-- **C3**: `WaitForGSM` called while the readiness flag is already set
returns `true` immediately for every timeout value, registering no waiter
and leaving the gate untouched (no blocking). -/
theorem waitForGSM_ready_immediate {g : GSMGate} (w t : Nat)
    (h : g.gsmReady = true) :
    WaitForGSM g w t = (WaitOutcome.ready, g) := by
  simp [WaitForGSM, h]

/-- Witness for C3 at a concrete ready gate. -/
theorem waitForGSM_ready_immediate_witness :
    WaitForGSM ⟨true, [], [], []⟩ 7 0 = (WaitOutcome.ready, ⟨true, [], [], []⟩) :=
  waitForGSM_ready_immediate 7 0 rfl

/-- **C4**: around a not-ready-to-ready `updateGSMState "connected"` call:
a waiter registered strictly before the call is among the notifications it
delivers; the call delivers notifications exactly to the waiters pending
at call time (so a waiter registered strictly after it receives nothing
from that call) and clears the waiter set; and a registration attempted
after the call observes the ready flag and returns immediately instead of
blocking — there is no missed-wakeup window because every step runs under
`gsmMu`. -/
theorem gate_notify_ordering {g : GSMGate} {w : Nat}
    (hnr : g.gsmReady = false) (hw : w ∈ g.gsmWaiters) :
    w ∈ (updateGSMState g connectedWord).notified ∧
    (updateGSMState g connectedWord).notified = g.notified ++ g.gsmWaiters ∧
    (updateGSMState g connectedWord).gsmWaiters = [] ∧
    (∀ w2 t, WaitForGSM (updateGSMState g connectedWord) w2 t =
      (WaitOutcome.ready, updateGSMState g connectedWord)) := by
  have hstep : updateGSMState g connectedWord =
      ⟨true, [], g.notified ++ g.gsmWaiters, g.immediate⟩ := by
    simp [updateGSMState, hnr]
  refine ⟨?_, ?_, ?_, ?_⟩
  · rw [hstep]; simp [hw]
  · rw [hstep]
  · rw [hstep]
  · intro w2 t
    apply waitForGSM_ready_immediate
    rw [hstep]

/-- Witness for C4 at a concrete gate with one pending waiter. -/
theorem gate_notify_ordering_witness :
    3 ∈ (updateGSMState ⟨false, [3], [], []⟩ connectedWord).notified ∧
    (updateGSMState ⟨false, [3], [], []⟩ connectedWord).notified = [] ++ [3] ∧
    (updateGSMState ⟨false, [3], [], []⟩ connectedWord).gsmWaiters = [] ∧
    (∀ w2 t, WaitForGSM (updateGSMState ⟨false, [3], [], []⟩ connectedWord) w2 t =
      (WaitOutcome.ready, updateGSMState ⟨false, [3], [], []⟩ connectedWord)) :=
  gate_notify_ordering rfl (by decide)

/-- **C2**: a `SendSMS` call made while the readiness flag is down (and
the session connected, with a functioning transport) first writes the
wakeup command, then waits with the 30-second deadline: it fails with the
GSM-not-ready error exactly when no ready transition arrives within that
deadline, and it writes the send command (after the wakeup) exactly when
readiness was signalled. -/
theorem sendSMS_wakeup_then_wait {st : ConnState} {writeOk sendWriteOk : Bool}
    {readyWithin : Nat → Bool} {number content : List Char}
    (hnr : st.gsmReady = false) (hc : st.connected = true) (hw : writeOk = true) :
    ((SendSMS st writeOk readyWithin sendWriteOk number content).1 =
        some SerialError.gsmNotReady ↔ readyWithin 30 = false) ∧
    (SendSMS st writeOk readyWithin sendWriteOk number content).2 =
      (if readyWithin 30 then [wakeupLine, sendCmdData number content]
       else [wakeupLine]) := by
  subst hw
  cases hr : readyWithin 30 <;>
    cases sendWriteOk <;>
      simp [SendSMS, EnsureGSMReady, Wakeup, hnr, hc, hr]

/-- Witness for C2: concrete session, ready frame never arrives, the call
fails with the not-ready error after writing only the wakeup command. -/
theorem sendSMS_wakeup_then_wait_witness :
    ((SendSMS ⟨true, false⟩ true (fun _ => false) true ['1'] ['h']).1 =
        some SerialError.gsmNotReady ↔ (fun _ : Nat => false) 30 = false) ∧
    (SendSMS ⟨true, false⟩ true (fun _ => false) true ['1'] ['h']).2 =
      (if (fun _ : Nat => false) 30 then [wakeupLine, sendCmdData ['1'] ['h']]
       else [wakeupLine]) :=
  sendSMS_wakeup_then_wait rfl rfl rfl

/-! ### Claim C7 -/

/-- Counterexample to C7 as stated: `Ping` performs no connectedness
check — called on a disconnected session with a functioning transport it
succeeds and writes the ping command instead of failing with the
not-connected error and writing nothing. -/
theorem ping_contract_cex :
    ¬ ((Ping ⟨false, false⟩ true).1 = some SerialError.notConnected ∧
       (Ping ⟨false, false⟩ true).2 = []) := by
  decide

/-- **C7** (amended): `Wakeup` follows the serialize-and-write contract
with the connectedness precondition — when disconnected it fails with the
not-connected error and writes nothing, when connected it writes exactly
one newline-terminated JSON command and fails only on a transport write
error.  `Ping` follows the same serialize-and-write contract but with no
connectedness check at all: in every state it writes exactly one
newline-terminated JSON command and fails only on a write error. -/
theorem ping_wakeup_contract (st : ConnState) (writeOk : Bool) :
    (st.connected = false →
      Wakeup st writeOk = (some SerialError.notConnected, [])) ∧
    (st.connected = true →
      (Wakeup st writeOk).2 = [wakeupLine] ∧
      ((Wakeup st writeOk).1 = none ↔ writeOk = true)) ∧
    ((Ping st writeOk).2 = [jsonMarshal ⟨pingWord, [], []⟩ ++ ['\n']] ∧
      ((Ping st writeOk).1 = none ↔ writeOk = true)) := by
  refine ⟨?_, ?_, ?_⟩
  · intro h; simp [Wakeup, h]
  · intro h; cases writeOk <;> simp [Wakeup, h]
  · cases writeOk <;> simp [Ping]

/-- Witness for C7's amended contract on a concrete state. -/
theorem ping_wakeup_contract_witness :
    ((⟨false, false⟩ : ConnState).connected = false →
      Wakeup ⟨false, false⟩ true = (some SerialError.notConnected, [])) ∧
    ((⟨false, false⟩ : ConnState).connected = true →
      (Wakeup ⟨false, false⟩ true).2 = [wakeupLine] ∧
      ((Wakeup ⟨false, false⟩ true).1 = none ↔ true = true)) ∧
    ((Ping ⟨false, false⟩ true).2 = [jsonMarshal ⟨pingWord, [], []⟩ ++ ['\n']] ∧
      ((Ping ⟨false, false⟩ true).1 = none ↔ true = true)) :=
  ping_wakeup_contract ⟨false, false⟩ true

/-! ### Claim C5 -/

/-- **C5**: the Reconnection Supervisor is single-flight — any number of
triggers while a run is in progress are no-ops (the state is unchanged
and no new loop starts), the in-progress invariant (at most one active
run, exactly when the flag is set) is preserved by every trigger, and the
deferred cleanup clears the flag when the run finishes. -/
theorem reconnection_single_flight :
    (∀ s : ReconnState, s.reconnecting = true →
      attemptReconnectionEnter s = (false, s)) ∧
    (∀ (n : Nat) (s : ReconnState), s.reconnecting = true →
      (fun t => (attemptReconnectionEnter t).2)^[n] s = s) ∧
    (∀ s : ReconnState, reconnInv s → reconnInv (attemptReconnectionEnter s).2) ∧
    (∀ s : ReconnState, (attemptReconnectionExit s).reconnecting = false ∧
      (s.activeRuns = 1 → reconnInv (attemptReconnectionExit s))) := by
  refine ⟨?_, ?_, ?_, ?_⟩
  · intro s h; simp [attemptReconnectionEnter, h]
  · intro n s h
    exact Function.iterate_fixed (by simp [attemptReconnectionEnter, h]) n
  · intro s hs
    by_cases h : s.reconnecting = true
    · simpa [attemptReconnectionEnter, h] using hs
    · have hb : s.reconnecting = false := by revert h; cases s.reconnecting <;> simp
      obtain ⟨h1, h2⟩ := hs
      have h0 : s.activeRuns = 0 := by
        have hne : s.activeRuns ≠ 1 := fun he => absurd (h2.mpr he) (by simp [hb])
        omega
      simp [attemptReconnectionEnter, hb, reconnInv, h0]
  · intro s
    refine ⟨rfl, fun h1 => ?_⟩
    simp [attemptReconnectionExit, reconnInv, h1]

/-- Witness for C5 on a concrete in-progress state. -/
theorem reconnection_single_flight_witness :
    attemptReconnectionEnter ⟨true, 1⟩ = (false, ⟨true, 1⟩) ∧
    (fun t => (attemptReconnectionEnter t).2)^[5] ⟨true, 1⟩ = ⟨true, 1⟩ ∧
    reconnInv (attemptReconnectionEnter ⟨true, 1⟩).2 ∧
    (attemptReconnectionExit ⟨true, 1⟩).reconnecting = false := by
  obtain ⟨h1, h2, h3, h4⟩ := reconnection_single_flight
  exact ⟨h1 ⟨true, 1⟩ rfl, h2 5 ⟨true, 1⟩ rfl,
    h3 ⟨true, 1⟩ (by constructor <;> simp), (h4 ⟨true, 1⟩).1⟩

/-! ### Claim C8 -/

/-- **C8**: a fatal transport read error observed while connected marks
the session disconnected, clears the readiness flag, and spawns exactly
one Reconnection Supervisor run when reconnection is enabled (none when it
is disabled); a repeat fatal error observed while already disconnected
changes nothing and spawns nothing. -/
theorem fatal_read_error_recovery {s : SessionState} (hc : s.connected = true) :
    readLoopErrStep s ReadErr.fatal =
      ({ s with connected := false, gsmReady := false }, s.shouldReconnect) ∧
    (∀ s2 : SessionState, s2.connected = false →
      readLoopErrStep s2 ReadErr.fatal = (s2, false)) := by
  constructor
  · simp [readLoopErrStep, handleDisconnection, hc]
  · intro s2 h2
    simp [readLoopErrStep, handleDisconnection, h2]

/-- Witness for C8 on a concrete connected session. -/
theorem fatal_read_error_recovery_witness :
    readLoopErrStep ⟨true, true, true⟩ ReadErr.fatal =
      ({ (⟨true, true, true⟩ : SessionState) with
          connected := false, gsmReady := false }, (⟨true, true, true⟩ : SessionState).shouldReconnect) ∧
    (∀ s2 : SessionState, s2.connected = false →
      readLoopErrStep s2 ReadErr.fatal = (s2, false)) :=
  fatal_read_error_recovery rfl

/-! ### Claim C9 -/

/-- **C9**: `Close` is idempotent — however many times it is called on a
fresh session, the cancellation signal (closing `stopChan`) is delivered
exactly once, no call panics (the `sync.Once` guard prevents the
double-close panic), and from the first call on the session stays in the
closed state: disconnected, reconnection disabled. -/
theorem close_idempotent (n : Nat) :
    CloseSession^[n + 1] initCloseState = closedState := by
  rw [Function.iterate_succ_apply,
    show CloseSession initCloseState = closedState from by decide]
  exact Function.iterate_fixed (by decide) n

/-! ### Claim C10 -/

/-- **C10**: for every received event frame, the timestamp handed to both
the persistence sink and the received-message callback is the host's
current time at dispatch, and the response's device-supplied `timestamp`
field, though parsed, never influences the result. -/
theorem received_timestamp_is_host_now (response : SerialResponse) (now : Nat)
    (t : List Char) :
    (handleReceivedSMS response now).1.receivedAt = now ∧
    (handleReceivedSMS response now).2.receivedAt = now ∧
    handleReceivedSMS { response with Time := t } now =
      handleReceivedSMS response now :=
  ⟨rfl, rfl, rfl⟩

end ArduinoSms

